import Mathlib

/-
Verification development for the prior-composition core described by the
specification of the jroulet pitp-pe-exercises repository, together with the
two pieces of concrete notebook code (derived-quantity columns and the chirp
mass estimate).  Parameter values are modelled as rationals, log densities as
elements of WithBot of the reals (bottom playing the role of minus infinity),
and fallible operations return Except values.
-/

set_option autoImplicit false

namespace PriorCore

/-- Modelled from the spec: the error taxonomy of section 7
(ConfigurationError, DuplicateParameterError, CoverageError, DomainError).
The implementation of these errors lives in the external library, which is
absent from the notebooks, so they are reconstructed from the specification
text.  A key-lookup failure during an inverse transform is reported as a
keyError. -/
inductive PriorError where
  | configurationError (msg : String)
  | duplicateParameterError (param : String)
  | coverageError (missing extra : List String)
  | domainError (param : String)
  | keyError (param : String)
  deriving DecidableEq

/-- Decidable equality of Except values, used to evaluate the fallible
operations of the model on concrete inputs. -/
instance instDecEqExcept {ε α : Type} [DecidableEq ε] [DecidableEq α] :
    DecidableEq (Except ε α)
  | .error e1, .error e2 =>
      if h : e1 = e2 then .isTrue (congrArg Except.error h)
      else .isFalse (fun hc => h (Except.error.inj hc))
  | .error _, .ok _ => .isFalse (fun hc => Except.noConfusion hc)
  | .ok _, .error _ => .isFalse (fun hc => Except.noConfusion hc)
  | .ok a1, .ok a2 =>
      if h : a1 = a2 then .isTrue (congrArg Except.ok h)
      else .isFalse (fun hc => h (Except.ok.inj hc))

/-- Modelled from the spec: one sampled coordinate of a Bounded-Uniform prior
with declared finite bounds and a periodic flag (section 3, ParameterSpec). -/
structure UniformSpec where
  name : String
  lo : ℚ
  hi : ℚ
  periodic : Bool
  deriving DecidableEq

/-- Modelled from the spec: the leaf Prior variants of sections 4.1 and 4.2,
Fixed (standard parameters bound to literal values at construction) and
Bounded-Uniform (identity transform with clamping and wrapping).  The tol
field of the uniform variant is the small numerical tolerance for the domain
checks of section 4.2. -/
inductive LeafPrior where
  | fixed (vals : List (String × ℚ))
  | uniform (specs : List UniformSpec) (tol : ℚ)
  deriving DecidableEq

/-- Ordered list of sampled-parameter names declared by a leaf prior. -/
def LeafPrior.sampled_params : LeafPrior → List String
  | .fixed _ => []
  | .uniform specs _ => specs.map (fun s => s.name)

/-- Standard-parameter names declared by a leaf prior. -/
def LeafPrior.standard_params : LeafPrior → List String
  | .fixed vals => vals.map (fun kv => kv.1)
  | .uniform specs _ => specs.map (fun s => s.name)

/-- Number of sampled coordinates of a leaf prior. -/
def LeafPrior.nSampled : LeafPrior → Nat
  | .fixed _ => 0
  | .uniform specs _ => specs.length

/-- Support check for a Bounded-Uniform prior: the vector has exactly one
coordinate per spec and every coordinate lies in the half-open declared
range. -/
def inSupportU : List UniformSpec → List ℚ → Bool
  | [], [] => true
  | s :: ss, x :: xs => decide (s.lo ≤ x) && decide (x < s.hi) && inSupportU ss xs
  | [], _ :: _ => false
  | _ :: _, [] => false

/-- Support check for a leaf prior: a Fixed prior only accepts the empty
sampled vector. -/
def LeafPrior.inSupport : LeafPrior → List ℚ → Bool
  | .fixed _, v => v.isEmpty
  | .uniform specs _, v => inSupportU specs v

/-- Modelled from the spec: minus the log-density normalization of a
Bounded-Uniform prior is the sum of the logarithms of the bound widths
(section 4.2). -/
noncomputable def sumLogVol (specs : List UniformSpec) : ℝ :=
  (specs.map (fun s => Real.log ((s.hi : ℝ) - (s.lo : ℝ)))).sum

/-- Modelled from the spec: log density of a leaf prior (sections 4.1 and
4.2).  A Fixed prior contributes zero on the empty vector; a Bounded-Uniform
prior contributes minus the sum of log widths inside its support and bottom,
standing for minus infinity, outside. -/
noncomputable def LeafPrior.lnprior : LeafPrior → List ℚ → WithBot ℝ
  | .fixed _, v => if v.isEmpty then 0 else ⊥
  | .uniform specs _, v =>
      if inSupportU specs v then ((-sumLogVol specs : ℝ) : WithBot ℝ) else ⊥

/-- Wrap a value into the half-open periodic range from lo to hi. -/
def wrap (lo hi x : ℚ) : ℚ := x - (hi - lo) * ((Int.floor ((x - lo) / (hi - lo)) : ℤ) : ℚ)

/-- Clamp a value into the closed range from lo to hi. -/
def clamp (lo hi x : ℚ) : ℚ := max lo (min x hi)

/-- Modelled from the spec: the forward transform of a Bounded-Uniform prior
(section 4.2) is the identity, except that periodic coordinates are wrapped
into range and non-periodic coordinates are clamped, with a DomainError when
a non-periodic coordinate lies strictly outside its bounds beyond the
tolerance. -/
def uniformTransform (tol : ℚ) : List UniformSpec → List ℚ → Except PriorError (List (String × ℚ))
  | [], [] => .ok []
  | s :: ss, x :: xs =>
      if s.periodic then
        (uniformTransform tol ss xs).map (fun d => (s.name, wrap s.lo s.hi x) :: d)
      else if decide (x < s.lo - tol) || decide (s.hi + tol < x) then
        .error (.domainError s.name)
      else
        (uniformTransform tol ss xs).map (fun d => (s.name, clamp s.lo s.hi x) :: d)
  | [], _ :: _ => .error (.configurationError "length mismatch")
  | _ :: _, [] => .error (.configurationError "length mismatch")

/-- Lookup of the first value bound to a key in an association list, the
model of a python dict access. -/
def alookup {β : Type} (k : String) : List (String × β) → Option β
  | [] => none
  | (k1, b) :: rest => if k1 = k then some b else alookup k rest

/-- Modelled from the spec: the inverse transform of a Bounded-Uniform prior
(section 4.2) looks each declared name up in the standard dict and applies
the same wrap, clamp and domain check as the forward direction. -/
def uniformInverse (tol : ℚ) (dict : List (String × ℚ)) : List UniformSpec → Except PriorError (List ℚ)
  | [] => .ok []
  | s :: ss =>
      match alookup s.name dict with
      | none => .error (.keyError s.name)
      | some x =>
          if s.periodic then
            (uniformInverse tol dict ss).map (fun v => wrap s.lo s.hi x :: v)
          else if decide (x < s.lo - tol) || decide (s.hi + tol < x) then
            .error (.domainError s.name)
          else
            (uniformInverse tol dict ss).map (fun v => clamp s.lo s.hi x :: v)

/-- Modelled from the spec: forward transform of a leaf prior.  A Fixed prior
maps the empty vector to its fixed standard values and rejects any non-empty
vector (section 4.1). -/
def LeafPrior.transform : LeafPrior → List ℚ → Except PriorError (List (String × ℚ))
  | .fixed vals, v =>
      if v.isEmpty then .ok vals
      else .error (.configurationError "nonempty vector for fixed prior")
  | .uniform specs tol, v => uniformTransform tol specs v

/-- Modelled from the spec: inverse transform of a leaf prior.  A Fixed prior
returns the empty vector without validating the supplied values
(section 4.1). -/
def LeafPrior.inverse_transform : LeafPrior → List (String × ℚ) → Except PriorError (List ℚ)
  | .fixed _, _ => .ok []
  | .uniform specs tol, dict => uniformInverse tol dict specs

/-- Modelled from the spec: a Prior is a Fixed, Bounded-Uniform or Combined
variant (section 2); a Combined prior owns an ordered list of child
priors. -/
inductive Prior where
  | leaf (p : LeafPrior)
  | combined (children : List LeafPrior)
  deriving DecidableEq

/-- Support check of a combined prior: slice the vector by child sampled
counts and require every child to accept its slice, with no coordinates left
over. -/
def combinedInSupport : List LeafPrior → List ℚ → Bool
  | [], v => v.isEmpty
  | c :: cs, v => c.inSupport (v.take c.nSampled) && combinedInSupport cs (v.drop c.nSampled)

/-- Modelled from the spec: log density of a combined prior is the sum of the
log densities of the children over their own sub-vector slices
(section 4.3). -/
noncomputable def combinedLnprior : List LeafPrior → List ℚ → WithBot ℝ
  | [], v => if v.isEmpty then 0 else ⊥
  | c :: cs, v => c.lnprior (v.take c.nSampled) + combinedLnprior cs (v.drop c.nSampled)

/-- Modelled from the spec: forward transform of a combined prior slices the
vector in child order, transforms each slice and concatenates the resulting
standard dicts (section 4.3). -/
def combinedTransform : List LeafPrior → List ℚ → Except PriorError (List (String × ℚ))
  | [], _ => .ok []
  | c :: cs, v => do
      let d ← c.transform (v.take c.nSampled)
      let rest ← combinedTransform cs (v.drop c.nSampled)
      pure (d ++ rest)

/-- Modelled from the spec: inverse transform of a combined prior hands the
full standard dict to every child and concatenates the returned sampled
sub-vectors in child order (section 4.3). -/
def combinedInverse : List LeafPrior → List (String × ℚ) → Except PriorError (List ℚ)
  | [], _ => .ok []
  | c :: cs, dict => do
      let v ← c.inverse_transform dict
      let rest ← combinedInverse cs dict
      pure (v ++ rest)

/-- Sampled-parameter names of a prior. -/
def Prior.sampled_params : Prior → List String
  | .leaf p => p.sampled_params
  | .combined cs => cs.flatMap LeafPrior.sampled_params

/-- Standard-parameter names of a prior. -/
def Prior.standard_params : Prior → List String
  | .leaf p => p.standard_params
  | .combined cs => cs.flatMap LeafPrior.standard_params

/-- Support check of a prior. -/
def Prior.inSupport : Prior → List ℚ → Bool
  | .leaf p, v => p.inSupport v
  | .combined cs, v => combinedInSupport cs v

/-- Log density of a prior. -/
noncomputable def Prior.lnprior : Prior → List ℚ → WithBot ℝ
  | .leaf p, v => p.lnprior v
  | .combined cs, v => combinedLnprior cs v

/-- Forward transform of a prior. -/
def Prior.transform : Prior → List ℚ → Except PriorError (List (String × ℚ))
  | .leaf p, v => p.transform v
  | .combined cs, v => combinedTransform cs v

/-- Inverse transform of a prior. -/
def Prior.inverse_transform : Prior → List (String × ℚ) → Except PriorError (List ℚ)
  | .leaf p, d => p.inverse_transform d
  | .combined cs, d => combinedInverse cs d

/-- Well-formedness of one uniform coordinate: the declared bounds are in
strict order. -/
def UniformSpec.wfB (s : UniformSpec) : Bool := decide (s.lo < s.hi)

/-- Well-formedness of a leaf prior: declared names are distinct, bounds are
in strict order and the tolerance is nonnegative. -/
def LeafPrior.wfB : LeafPrior → Bool
  | .fixed vals => decide ((vals.map Prod.fst).Nodup)
  | .uniform specs tol =>
      decide (0 ≤ tol) && specs.all UniformSpec.wfB && decide ((specs.map (fun s => s.name)).Nodup)

/-- Well-formedness of a prior: every leaf is well formed and, for a combined
prior, the standard-parameter names of the children are globally distinct. -/
def Prior.wfB : Prior → Bool
  | .leaf p => p.wfB
  | .combined cs => cs.all LeafPrior.wfB && decide ((cs.flatMap LeafPrior.standard_params).Nodup)

/-- Modelled from the spec: eager construction-time validation of a
CombinedPrior (sections 4.3 and 7).  Construction fails with a
DuplicateParameterError when some sampled-parameter name is declared twice,
and with a CoverageError when the standard-parameter names of the children,
taken without duplication, do not exactly equal the required set. -/
def mkCombinedPrior (children : List LeafPrior) (required : List String) : Except PriorError Prior :=
  let sampled := children.flatMap LeafPrior.sampled_params
  let std := children.flatMap LeafPrior.standard_params
  match sampled.find? (fun n => decide (1 < sampled.count n)) with
  | some n => .error (.duplicateParameterError n)
  | none =>
      let missing := required.filter (fun n => !std.contains n)
      let extra := std.filter (fun n => !required.contains n)
      if missing.isEmpty && extra.isEmpty && decide std.Nodup then .ok (.combined children)
      else .error (.coverageError missing extra)

/-- Modelled from the spec: a Posterior owns one Prior and one log-likelihood
callable over standard dicts (section 3). -/
structure Posterior where
  prior : Prior
  lnlike : List (String × ℚ) → ℝ

/-- Modelled from the spec: the log posterior of section 4.4, instrumented
with a counter recording how many times the likelihood callable is invoked.
When the log prior is minus infinity, equivalently when the vector is outside
the support of the prior, the likelihood is not invoked and minus infinity is
returned; otherwise the log prior and the log likelihood of the transformed
vector are added, and a transform error propagates unchanged. -/
noncomputable def Posterior.lnposteriorCount (post : Posterior) (v : List ℚ) :
    Except PriorError (WithBot ℝ) × Nat :=
  if post.prior.inSupport v then
    match post.prior.transform v with
    | .ok d => (.ok (post.prior.lnprior v + ((post.lnlike d : ℝ) : WithBot ℝ)), 1)
    | .error e => (.error e, 0)
  else (.ok ⊥, 0)

/-- Modelled from the spec: the log posterior of section 4.4. -/
noncomputable def Posterior.lnposterior (post : Posterior) (v : List ℚ) :
    Except PriorError (WithBot ℝ) :=
  (post.lnposteriorCount v).1

/-- Modelled from the spec: the FixedSkyLocationPrior the third notebook asks
the student to complete, fixing right ascension and declination to values
supplied at construction. -/
def FixedSkyLocationPrior (ra dec : ℚ) : LeafPrior :=
  .fixed [("ra", ra), ("dec", dec)]

/-- Ambient hidden random state.  The python source draws randomness from the
numpy library, whose hidden global generator is modelled by this value; the
specification demands that seeded generation never consult it. -/
abbrev GlobalRandomState := Nat

/-- Modelled from the spec: one step of the explicit pseudo-random generator
backing seeded sample generation (section 4.2); the external library routine
is absent from the notebooks, so a standard linear congruential step stands
in for it. -/
def lcgNext (s : Nat) : Nat := (1103515245 * s + 12345) % 2 ^ 31

/-- Map a generator state into the half-open unit interval. -/
def unitFromState (s : Nat) : ℚ := ((s % 2 ^ 31 : Nat) : ℚ) / ((2 ^ 31 : Nat) : ℚ)

/-- Draw one value per uniform coordinate, threading the generator state. -/
def drawSpecs : List UniformSpec → Nat → List ℚ × Nat
  | [], s => ([], s)
  | sp :: sps, s =>
      let s1 := lcgNext s
      let x := sp.lo + (sp.hi - sp.lo) * unitFromState s1
      let (xs, s2) := drawSpecs sps s1
      (x :: xs, s2)

/-- Uniform coordinates of a prior, in declared order. -/
def Prior.uniformSpecs : Prior → List UniformSpec
  | .leaf (.fixed _) => []
  | .leaf (.uniform specs _) => specs
  | .combined cs =>
      cs.flatMap (fun c => match c with | .fixed _ => [] | .uniform specs _ => specs)

/-- Draw a given number of sampled vectors, threading the generator state
from one sample to the next. -/
def genLoop (sps : List UniformSpec) : Nat → Nat → List (List ℚ)
  | 0, _ => []
  | n + 1, s =>
      let (x, s1) := drawSpecs sps s
      x :: genLoop sps n s1

/-- Modelled from the spec: the sample-generation method of section 4.2.
Generation is a pure function of the prior, the number of samples and the
explicit seed; the ambient GlobalRandomState argument models hidden global
generator state and is deliberately never read. -/
def Prior.generate_random_samples (p : Prior) (g : GlobalRandomState) (n seed : Nat) :
    List (List ℚ) :=
  genLoop p.uniformSpecs n seed

/-- Modelled from the spec: the auxiliary prior used by the first notebook to
draw an injection; the external IASPrior is opaque, so a Bounded-Uniform
prior over the chirp mass range of the notebook stands in for it. -/
def auxPrior : Prior :=
  .leaf (.uniform [⟨"mchirp", 10, 50, false⟩] 0)

/-- Modelled from the source notebook: draw one random sample from the
auxiliary prior with the given seed and return its standard-parameter dict
(_generate_injection_dic of the first notebook, with the external prior
replaced by auxPrior). -/
def generate_injection_dic (g : GlobalRandomState) (seed : Nat) : List (String × ℚ) :=
  match (auxPrior.generate_random_samples g 1 seed).head? with
  | some v => (auxPrior.transform v).toOption.getD []
  | none => []

/-- Modelled from the spec: the event data produced by the first notebook,
reduced to the fields determined in this model: the event name, the injected
standard-parameter dict and the seed passed to the gaussian-noise
generator. -/
structure EventData where
  eventname : String
  injection : List (String × ℚ)
  noise_seed : Nat
  deriving DecidableEq

/-- Modelled from the source notebook: get_event_data builds an event whose
name embeds the seed, injects the dict drawn from the seed and forwards the
same seed to the noise generator. -/
def get_event_data (g : GlobalRandomState) (seed : Nat) : EventData :=
  { eventname := "GW" ++ toString seed
    injection := generate_injection_dic g seed
    noise_seed := seed }

/-- Total number of sampled coordinates declared by a list of child priors. -/
def totalSampled (cs : List LeafPrior) : Nat := (cs.map LeafPrior.nSampled).sum

/-- Per-child sub-vector slices of a sampled vector, in child order. -/
def slices : List LeafPrior → List ℚ → List (List ℚ)
  | [], _ => []
  | c :: cs, v => v.take c.nSampled :: slices cs (v.drop c.nSampled)

/-- Standard dict produced by the identity transform of a Bounded-Uniform
prior on an in-bounds vector: each declared name paired with its
coordinate. -/
def zipNames : List UniformSpec → List ℚ → List (String × ℚ)
  | s :: ss, x :: xs => (s.name, x) :: zipNames ss xs
  | _, _ => []

/-- Standard dict produced by a leaf prior on an in-bounds sampled vector. -/
def leafDict : LeafPrior → List ℚ → List (String × ℚ)
  | .fixed vals, _ => vals
  | .uniform specs _, v => zipNames specs v

/-- Standard dict produced by a combined prior on an in-bounds sampled
vector: the concatenation of the child dicts over the per-child slices. -/
def dictOf : List LeafPrior → List ℚ → List (String × ℚ)
  | [], _ => []
  | c :: cs, v => leafDict c (v.take c.nSampled) ++ dictOf cs (v.drop c.nSampled)

/-- Two distinct children both declare some sampled-parameter name. -/
def TwoChildrenShareSampled (cs : List LeafPrior) : Prop :=
  ∃ i j : Nat, ∃ hi : i < cs.length, ∃ hj : j < cs.length, i < j ∧
    ∃ n : String,
      n ∈ (cs.get ⟨i, hi⟩).sampled_params ∧ n ∈ (cs.get ⟨j, hj⟩).sampled_params

end PriorCore

namespace Samples

/-- A samples table: an ordered association of column names to columns of
rational values, mirroring the pandas dataframe of the first notebook. -/
abbrev Table := List (String × List ℚ)

/-- Read a column, defaulting to the empty column when absent. -/
def getCol (t : Table) (k : String) : List ℚ := (PriorCore.alookup k t).getD []

/-- Assign a column: replace the first column of that name when present,
append the column otherwise, keeping every other column untouched. -/
def setCol : Table → String → List ℚ → Table
  | [], k, c => [(k, c)]
  | (k1, c1) :: rest, k, c =>
      if k1 = k then (k, c) :: rest else (k1, c1) :: setCol rest k c

/-- Pointwise combination of four columns. -/
def zipWith4 (f : ℚ → ℚ → ℚ → ℚ → ℚ) : List ℚ → List ℚ → List ℚ → List ℚ → List ℚ
  | a :: as, b :: bs, c :: cs, d :: ds => f a b c d :: zipWith4 f as bs cs ds
  | _, _, _, _ => []

/-- Embedding of add_derived_quantities from the first notebook.  The two
external library functions it calls, the redshift of a luminosity distance
and the effective spin, are taken as explicit function arguments; column
assignments follow the source order: redshift, mtot, then the three source
frame masses divided by one plus redshift, then chieff, then q. -/
def add_derived_quantities (z_of_d_luminosity : ℚ → ℚ)
    (chieff : ℚ → ℚ → ℚ → ℚ → ℚ) (samples : Table) : Table :=
  let s1 := setCol samples "redshift" ((getCol samples "d_luminosity").map z_of_d_luminosity)
  let s2 := setCol s1 "mtot" (List.zipWith (fun a b => a + b) (getCol s1 "m1") (getCol s1 "m2"))
  let s3 := setCol s2 "m1_source"
      (List.zipWith (fun m z => m / (1 + z)) (getCol s2 "m1") (getCol s2 "redshift"))
  let s4 := setCol s3 "m2_source"
      (List.zipWith (fun m z => m / (1 + z)) (getCol s3 "m2") (getCol s3 "redshift"))
  let s5 := setCol s4 "mtot_source"
      (List.zipWith (fun m z => m / (1 + z)) (getCol s4 "mtot") (getCol s4 "redshift"))
  let s6 := setCol s5 "chieff"
      (zipWith4 chieff (getCol s5 "m1") (getCol s5 "m2") (getCol s5 "s1z") (getCol s5 "s2z"))
  setCol s6 "q" (List.zipWith (fun a b => a / b) (getCol s6 "m2") (getCol s6 "m1"))

/-- The seven column names assigned by add_derived_quantities. -/
def derivedCols : List String :=
  ["redshift", "mtot", "m1_source", "m2_source", "mtot_source", "chieff", "q"]

end Samples

namespace ChirpMass

/-- The solar mass in seconds, the lal library constant MTSUN_SI used by the
first notebook. -/
noncomputable def MTSUN_SI : ℝ := (4925490947641267 : ℝ) / 10 ^ 21

/-- Embedding of the chirp mass estimate of the first notebook: the fitted
slope of the minus eight-thirds power of frequency against time is negated,
rescaled and raised to the three-fifths power, then divided by the solar
mass in seconds. -/
noncomputable def mchirp_guess (slope : ℝ) : ℝ :=
  (-slope / (8 * Real.pi) ^ ((8 : ℝ) / 3) * 5) ^ ((3 : ℝ) / 5) / MTSUN_SI

/-- The frequency-evolution relation the in-code comment states: the slope
equals the chirp mass combination without a minus sign.  The code inverts
this relation with the sign flipped. -/
noncomputable def slopeOfMchirp (m : ℝ) : ℝ :=
  (8 * Real.pi) ^ ((8 : ℝ) / 3) / 5 * (MTSUN_SI * m) ^ ((5 : ℝ) / 3)

end ChirpMass

namespace PriorCore

theorem leaf_lnprior_eq_bot_iff (p : LeafPrior) (v : List ℚ) :
    p.lnprior v = ⊥ ↔ p.inSupport v = false := by
  cases p with
  | fixed vals =>
      simp only [LeafPrior.lnprior, LeafPrior.inSupport]
      by_cases h : v.isEmpty
      · simp [h]
      · simp [h]
  | uniform specs tol =>
      simp only [LeafPrior.lnprior, LeafPrior.inSupport]
      by_cases h : inSupportU specs v
      · simp [h]
      · simp [h]

theorem combined_lnprior_eq_bot_iff (cs : List LeafPrior) (v : List ℚ) :
    combinedLnprior cs v = ⊥ ↔ combinedInSupport cs v = false := by
  induction cs generalizing v with
  | nil =>
      simp only [combinedLnprior, combinedInSupport]
      by_cases h : v.isEmpty
      · simp [h]
      · simp [h]
  | cons c cs ih =>
      simp only [combinedLnprior, combinedInSupport, WithBot.add_eq_bot,
        leaf_lnprior_eq_bot_iff, ih, Bool.and_eq_false_iff]

theorem lnprior_eq_bot_iff (p : Prior) (v : List ℚ) :
    p.lnprior v = ⊥ ↔ p.inSupport v = false := by
  cases p with
  | leaf q => exact leaf_lnprior_eq_bot_iff q v
  | combined cs => exact combined_lnprior_eq_bot_iff cs v

/-- C1: for every Posterior built from a Prior and a log-likelihood callable,
and every sampled vector on which the transform of the prior is defined, the
log posterior equals the log prior of the vector plus the log likelihood
evaluated at the transformed standard-parameter dict.  Minus infinity is
absorbing for the addition, so the equation also covers vectors outside the
support of the prior. -/
theorem C1_lnposterior_adds_loglikelihood (prior : Prior) (lnlike : List (String × ℚ) → ℝ)
    (v : List ℚ) (d : List (String × ℚ)) (hd : prior.transform v = .ok d) :
    (Posterior.mk prior lnlike).lnposterior v =
      .ok (prior.lnprior v + ((lnlike d : ℝ) : WithBot ℝ)) := by
  by_cases hs : prior.inSupport v
  · simp [Posterior.lnposterior, Posterior.lnposteriorCount, hs, hd]
  · have hbot : prior.lnprior v = ⊥ :=
      (lnprior_eq_bot_iff prior v).mpr (Bool.not_eq_true _ ▸ hs)
    simp [Posterior.lnposterior, Posterior.lnposteriorCount, hs, hbot]

/-- Witness for C1 at a concrete Bounded-Uniform prior and constant
likelihood. -/
theorem C1_lnposterior_adds_loglikelihood_witness :
    (Prior.leaf (.uniform [⟨"mchirp", 10, 50, false⟩] 0)).transform [15] =
        .ok [("mchirp", 15)] ∧
      (Posterior.mk (Prior.leaf (.uniform [⟨"mchirp", 10, 50, false⟩] 0))
            (fun _ => 7)).lnposterior [15] =
        .ok ((Prior.leaf (.uniform [⟨"mchirp", 10, 50, false⟩] 0)).lnprior [15] +
          ((7 : ℝ) : WithBot ℝ)) := by
  have hd : (Prior.leaf (.uniform [⟨"mchirp", 10, 50, false⟩] 0)).transform [15] =
      .ok [("mchirp", 15)] := by
    norm_num [Prior.transform, LeafPrior.transform, uniformTransform, clamp, min_def, max_def, Except.map]
  exact ⟨hd, C1_lnposterior_adds_loglikelihood _ (fun _ => 7) [15] [("mchirp", 15)] hd⟩

/-- C2: when the log prior of a vector is minus infinity the log posterior
returns minus infinity, the likelihood callable is invoked zero times, and
the value of the log posterior does not depend on which likelihood callable
the Posterior owns. -/
theorem C2_short_circuit_skips_likelihood (prior : Prior)
    (lnlike : List (String × ℚ) → ℝ) (v : List ℚ) (h : prior.lnprior v = ⊥) :
    (Posterior.mk prior lnlike).lnposteriorCount v = (.ok ⊥, 0) ∧
      ∀ lnlike2 : List (String × ℚ) → ℝ,
        (Posterior.mk prior lnlike2).lnposterior v =
          (Posterior.mk prior lnlike).lnposterior v := by
  have hs : prior.inSupport v = false := (lnprior_eq_bot_iff prior v).mp h
  constructor
  · simp [Posterior.lnposteriorCount, hs]
  · intro lnlike2
    simp [Posterior.lnposterior, Posterior.lnposteriorCount, hs]

/-- Witness for C2 at a vector outside the bounds of a concrete
Bounded-Uniform prior. -/
theorem C2_short_circuit_skips_likelihood_witness :
    (Prior.leaf (.uniform [⟨"mchirp", 10, 50, false⟩] 0)).lnprior [60] = ⊥ ∧
      (Posterior.mk (Prior.leaf (.uniform [⟨"mchirp", 10, 50, false⟩] 0))
          (fun _ => 7)).lnposteriorCount [60] = (.ok ⊥, 0) := by
  have hb : (Prior.leaf (.uniform [⟨"mchirp", 10, 50, false⟩] 0)).lnprior [60] = ⊥ := by
    norm_num [Prior.lnprior, LeafPrior.lnprior, inSupportU]
  exact ⟨hb, (C2_short_circuit_skips_likelihood _ (fun _ => 7) [60] hb).1⟩

/-- C6: a Fixed-variant prior declares zero sampled parameters, its transform
maps the empty sampled vector to exactly the dict of fixed values, and its
log density is zero; in particular this holds for the FixedSkyLocationPrior
of the third notebook. -/
theorem C6_fixed_prior_contract (vals : List (String × ℚ)) (ra dec : ℚ) :
    (Prior.leaf (.fixed vals)).sampled_params = [] ∧
      (LeafPrior.fixed vals).transform [] = .ok vals ∧
      (LeafPrior.fixed vals).lnprior [] = 0 ∧
      (FixedSkyLocationPrior ra dec).sampled_params = [] ∧
      (FixedSkyLocationPrior ra dec).transform [] = .ok [("ra", ra), ("dec", dec)] ∧
      (FixedSkyLocationPrior ra dec).lnprior [] = 0 :=
  ⟨rfl, rfl, rfl, rfl, rfl, rfl⟩

/-- C7: seeded sample generation is a pure function of the prior, the sample
count and the explicit seed: its output is invariant under the ambient
hidden random state, equal seeds and equal priors give equal samples, and
the notebook injection construction inherits the same determinism. -/
theorem C7_seeded_generation_deterministic (p p2 : Prior) (g1 g2 : GlobalRandomState)
    (n seed seed2 : Nat) (hp : p = p2) (hseed : seed = seed2) :
    p.generate_random_samples g1 n seed = p2.generate_random_samples g2 n seed2 ∧
      generate_injection_dic g1 seed = generate_injection_dic g2 seed2 ∧
      get_event_data g1 seed = get_event_data g2 seed2 := by
  subst hp; subst hseed; exact ⟨rfl, rfl, rfl⟩

/-- Witness for C7 at a concrete prior, two distinct ambient states and a
concrete seed. -/
theorem C7_seeded_generation_deterministic_witness :
    auxPrior.generate_random_samples 11 3 0 = auxPrior.generate_random_samples 99 3 0 ∧
      get_event_data 11 0 = get_event_data 99 0 :=
  ⟨(C7_seeded_generation_deterministic auxPrior auxPrior 11 99 3 0 0 rfl rfl).1,
    (C7_seeded_generation_deterministic auxPrior auxPrior 11 99 3 0 0 rfl rfl).2.2⟩

theorem twoShare_not_nodup (cs : List LeafPrior) (h : TwoChildrenShareSampled cs) :
    ¬(cs.flatMap LeafPrior.sampled_params).Nodup := by
  intro hnd
  obtain ⟨i, j, hi, hj, hij, n, hni, hnj⟩ := h
  have hpw := (List.nodup_flatMap.mp hnd).2
  have hdisj := List.pairwise_iff_get.mp hpw ⟨i, hi⟩ ⟨j, hj⟩ (Fin.mk_lt_mk.mpr hij)
  exact hdisj hni hnj

theorem nodup_of_dupFind_none (l : List String)
    (h : l.find? (fun n => decide (1 < l.count n)) = none) : l.Nodup := by
  rw [List.find?_eq_none] at h
  rw [List.nodup_iff_count_le_one]
  intro a
  by_cases ha : a ∈ l
  · have := h a ha
    simp only [decide_eq_true_eq] at this
    omega
  · have : l.count a = 0 := List.count_eq_zero.mpr ha
    omega

theorem dupFind_isSome (l : List String) (h : ¬l.Nodup) :
    ∃ n, l.find? (fun n => decide (1 < l.count n)) = some n := by
  rw [List.nodup_iff_count_le_one] at h
  push_neg at h
  obtain ⟨a, ha⟩ := h
  have hmem : a ∈ l := List.count_pos_iff.mp (by omega)
  have hs : (l.find? (fun n => decide (1 < l.count n))).isSome := by
    rw [List.find?_isSome]
    exact ⟨a, hmem, by simp only [decide_eq_true_eq]; omega⟩
  exact Option.isSome_iff_exists.mp hs

/-- C3: building a CombinedPrior validates eagerly at construction: when two
children declare a common sampled-parameter name construction fails with a
DuplicateParameterError; when the sampled names are distinct but the
standard-parameter names of the children do not exactly cover the required
set construction fails with a CoverageError; and every successfully
constructed CombinedPrior object satisfies both invariants, so no such
object exists in an invalid state. -/
theorem C3_combined_construction_validation (cs : List LeafPrior) (req : List String) :
    (TwoChildrenShareSampled cs →
        ∃ n, mkCombinedPrior cs req = .error (.duplicateParameterError n)) ∧
      ((cs.flatMap LeafPrior.sampled_params).Nodup →
        ¬(∀ n, n ∈ cs.flatMap LeafPrior.standard_params ↔ n ∈ req) →
          ∃ missing extra, mkCombinedPrior cs req = .error (.coverageError missing extra)) ∧
      ∀ P, mkCombinedPrior cs req = .ok P →
        P = .combined cs ∧ ¬TwoChildrenShareSampled cs ∧
          (∀ n, n ∈ cs.flatMap LeafPrior.standard_params ↔ n ∈ req) ∧
          (cs.flatMap LeafPrior.standard_params).Nodup := by
  refine ⟨?_, ?_, ?_⟩
  · intro h
    obtain ⟨n, hfind⟩ := dupFind_isSome _ (twoShare_not_nodup cs h)
    exact ⟨n, by simp [mkCombinedPrior, hfind]⟩
  · intro hnd hne
    have hfind : (cs.flatMap LeafPrior.sampled_params).find?
        (fun n => decide (1 < (cs.flatMap LeafPrior.sampled_params).count n)) = none := by
      rw [List.find?_eq_none]
      intro x hx
      rw [List.nodup_iff_count_le_one] at hnd
      have := hnd x
      simp only [decide_eq_true_eq]
      omega
    push_neg at hne
    obtain ⟨n, hn⟩ := hne
    by_cases hstd : n ∈ cs.flatMap LeafPrior.standard_params
    · have hreq : n ∉ req := by tauto
      have hx : n ∈ (cs.flatMap LeafPrior.standard_params).filter
          (fun m => !req.contains m) := by
        simp only [List.mem_filter]
        exact ⟨hstd, by simp [hreq]⟩
      have hxe : ((cs.flatMap LeafPrior.standard_params).filter
          (fun m => !req.contains m)).isEmpty = false := by
        rw [← Bool.not_eq_true, List.isEmpty_iff]
        exact List.ne_nil_of_mem hx
      refine ⟨req.filter (fun m => !(cs.flatMap LeafPrior.standard_params).contains m),
        (cs.flatMap LeafPrior.standard_params).filter (fun m => !req.contains m), ?_⟩
      simp only [mkCombinedPrior, hfind]
      rw [if_neg ?_]
      intro hc
      rw [Bool.and_eq_true, Bool.and_eq_true] at hc
      have hc2 := hc.1.2
      rw [hxe] at hc2
      exact Bool.noConfusion hc2
    · have hreq : n ∈ req := by tauto
      have hx : n ∈ req.filter
          (fun m => !(cs.flatMap LeafPrior.standard_params).contains m) := by
        simp only [List.mem_filter]
        exact ⟨hreq, by simp [hstd]⟩
      have hxe : (req.filter
          (fun m => !(cs.flatMap LeafPrior.standard_params).contains m)).isEmpty = false := by
        rw [← Bool.not_eq_true, List.isEmpty_iff]
        exact List.ne_nil_of_mem hx
      refine ⟨req.filter (fun m => !(cs.flatMap LeafPrior.standard_params).contains m),
        (cs.flatMap LeafPrior.standard_params).filter (fun m => !req.contains m), ?_⟩
      simp only [mkCombinedPrior, hfind]
      rw [if_neg ?_]
      intro hc
      rw [Bool.and_eq_true, Bool.and_eq_true] at hc
      have hc1 := hc.1.1
      rw [hxe] at hc1
      exact Bool.noConfusion hc1
  · intro P hmk
    have hnodup : (cs.flatMap LeafPrior.sampled_params).Nodup := by
      by_cases hf : (cs.flatMap LeafPrior.sampled_params).find?
          (fun n => decide (1 < (cs.flatMap LeafPrior.sampled_params).count n)) = none
      · exact nodup_of_dupFind_none _ hf
      · exfalso
        obtain ⟨n, hsome⟩ := Option.ne_none_iff_exists'.mp hf
        simp only [mkCombinedPrior, hsome] at hmk
        exact Except.noConfusion hmk
    have hfind : (cs.flatMap LeafPrior.sampled_params).find?
        (fun n => decide (1 < (cs.flatMap LeafPrior.sampled_params).count n)) = none := by
      rw [List.find?_eq_none]
      intro x hx
      rw [List.nodup_iff_count_le_one] at hnodup
      have := hnodup x
      simp only [decide_eq_true_eq]
      omega
    simp only [mkCombinedPrior, hfind] at hmk
    by_cases hcond : ((req.filter
          (fun m => !(cs.flatMap LeafPrior.standard_params).contains m)).isEmpty &&
        ((cs.flatMap LeafPrior.standard_params).filter
          (fun m => !req.contains m)).isEmpty &&
        decide (cs.flatMap LeafPrior.standard_params).Nodup) = true
    · rw [if_pos hcond] at hmk
      have hP : P = .combined cs := (Except.ok.inj hmk).symm
      rw [Bool.and_eq_true, Bool.and_eq_true] at hcond
      obtain ⟨⟨hm1, hm2⟩, hm3⟩ := hcond
      rw [List.isEmpty_iff] at hm1 hm2
      rw [decide_eq_true_eq] at hm3
      have hcov : ∀ n, n ∈ cs.flatMap LeafPrior.standard_params ↔ n ∈ req := by
        intro n
        constructor
        · intro hstd
          by_contra hreq
          have hmem : n ∈ (cs.flatMap LeafPrior.standard_params).filter
              (fun m => !req.contains m) := by
            simp only [List.mem_filter]
            exact ⟨hstd, by simp [hreq]⟩
          rw [hm2] at hmem
          exact List.not_mem_nil n hmem
        · intro hreq
          by_contra hstd
          have hmem : n ∈ req.filter
              (fun m => !(cs.flatMap LeafPrior.standard_params).contains m) := by
            simp only [List.mem_filter]
            exact ⟨hreq, by simp [hstd]⟩
          rw [hm1] at hmem
          exact List.not_mem_nil n hmem
      refine ⟨hP, ?_, hcov, hm3⟩
      intro hts
      exact twoShare_not_nodup cs hts hnodup
    · rw [if_neg hcond] at hmk
      exact Except.noConfusion hmk

/-- Witness for C3 at a concrete pair of children sharing the sampled name x. -/
theorem C3_combined_construction_validation_witness :
    ∃ n, mkCombinedPrior
        [.uniform [⟨"x", 0, 1, false⟩] 0, .uniform [⟨"x", 0, 1, false⟩] 0] ["x"] =
      .error (.duplicateParameterError n) :=
  (C3_combined_construction_validation
      [.uniform [⟨"x", 0, 1, false⟩] 0, .uniform [⟨"x", 0, 1, false⟩] 0] ["x"]).1
    ⟨0, 1, by decide, by decide, by decide, "x", by decide, by decide⟩

theorem combinedLnprior_eq_sum (cs : List LeafPrior) : ∀ v : List ℚ,
    v.length = totalSampled cs →
    combinedLnprior cs v =
      ((cs.zip (slices cs v)).map (fun pr => pr.1.lnprior pr.2)).sum := by
  induction cs with
  | nil =>
      intro v hlen
      have hv : v = [] := List.eq_nil_of_length_eq_zero (by simpa [totalSampled] using hlen)
      subst hv
      simp [combinedLnprior, slices]
  | cons c cs ih =>
      intro v hlen
      simp only [combinedLnprior, slices, List.zip_cons_cons, List.map_cons, List.sum_cons]
      congr 1
      refine ih _ ?_
      simp only [totalSampled, List.map_cons, List.sum_cons] at hlen
      simp only [List.length_drop, totalSampled]
      omega

/-- C4: for a validly constructed CombinedPrior and a sampled vector of the
declared total length, the combined log density equals the sum over children
of the child log density on the corresponding sub-vector slice. -/
theorem C4_combined_lnprior_additive (cs : List LeafPrior) (req : List String) (P : Prior)
    (hmk : mkCombinedPrior cs req = .ok P) (v : List ℚ) (hlen : v.length = totalSampled cs) :
    P.lnprior v = ((cs.zip (slices cs v)).map (fun pr => pr.1.lnprior pr.2)).sum := by
  have hP : P = .combined cs :=
    ((C3_combined_construction_validation cs req).2.2 P hmk).1
  subst hP
  simpa only [Prior.lnprior] using combinedLnprior_eq_sum cs v hlen

/-- Witness for C4 at a CombinedPrior of one Fixed and one Bounded-Uniform
child. -/
theorem C4_combined_lnprior_additive_witness :
    mkCombinedPrior
        [.fixed [("ra", 0), ("dec", 1)], .uniform [⟨"mchirp", 10, 50, false⟩] 0]
        ["ra", "dec", "mchirp"] =
      .ok (.combined
        [.fixed [("ra", 0), ("dec", 1)], .uniform [⟨"mchirp", 10, 50, false⟩] 0]) ∧
      (Prior.combined
          [.fixed [("ra", 0), ("dec", 1)], .uniform [⟨"mchirp", 10, 50, false⟩] 0]).lnprior
          [15] =
        (([LeafPrior.fixed [("ra", 0), ("dec", 1)],
            LeafPrior.uniform [⟨"mchirp", 10, 50, false⟩] 0].zip
          (slices [.fixed [("ra", 0), ("dec", 1)], .uniform [⟨"mchirp", 10, 50, false⟩] 0]
            [15])).map (fun pr => pr.1.lnprior pr.2)).sum := by
  constructor
  · decide
  · exact C4_combined_lnprior_additive _ ["ra", "dec", "mchirp"] _ (by decide) [15] (by decide)

theorem wrap_eq_self (lo hi x : ℚ) (hlh : lo < hi) (h1 : lo ≤ x) (h2 : x < hi) :
    wrap lo hi x = x := by
  unfold wrap
  have hfloor : Int.floor ((x - lo) / (hi - lo)) = 0 := by
    rw [Int.floor_eq_zero_iff]
    constructor
    · exact div_nonneg (sub_nonneg.mpr h1) (le_of_lt (sub_pos.mpr hlh))
    · exact (div_lt_one (sub_pos.mpr hlh)).mpr (by linarith)
  rw [hfloor]
  push_cast
  ring

theorem clamp_eq_self (lo hi x : ℚ) (h1 : lo ≤ x) (h2 : x ≤ hi) : clamp lo hi x = x := by
  unfold clamp
  rw [min_eq_left h2, max_eq_right h1]

theorem tolCheck_false (s : UniformSpec) (tol x : ℚ) (htol : 0 ≤ tol)
    (h1 : s.lo ≤ x) (h2 : x < s.hi) :
    (decide (x < s.lo - tol) || decide (s.hi + tol < x)) = false := by
  simp only [Bool.or_eq_false_iff, decide_eq_false_iff_not, not_lt]
  constructor
  · linarith
  · linarith

theorem alookup_eq_none_iff {β : Type} (k : String) (l : List (String × β)) :
    alookup k l = none ↔ k ∉ l.map Prod.fst := by
  induction l with
  | nil => simp [alookup]
  | cons hd rest ih =>
      obtain ⟨k1, b⟩ := hd
      by_cases h : k1 = k
      · subst h
        simp [alookup]
      · simp [alookup, h, ih, Ne.symm h]

theorem alookup_append {β : Type} (k : String) (l1 l2 : List (String × β)) :
    alookup k (l1 ++ l2) =
      match alookup k l1 with
      | some b => some b
      | none => alookup k l2 := by
  induction l1 with
  | nil => simp [alookup]
  | cons hd rest ih =>
      obtain ⟨k1, b⟩ := hd
      by_cases h : k1 = k
      · simp [alookup, h]
      · simp [alookup, h, ih]

theorem alookup_append_of_none {β : Type} (k : String) (l1 l2 : List (String × β))
    (h : alookup k l1 = none) : alookup k (l1 ++ l2) = alookup k l2 := by
  rw [alookup_append, h]

theorem uniformTransform_ok (tol : ℚ) (htol : 0 ≤ tol) :
    ∀ (specs : List UniformSpec) (v : List ℚ),
      specs.all UniformSpec.wfB = true → inSupportU specs v = true →
      uniformTransform tol specs v = .ok (zipNames specs v) := by
  intro specs
  induction specs with
  | nil =>
      intro v hwf hv
      cases v with
      | nil => rfl
      | cons x xs => simp [inSupportU] at hv
  | cons s ss ih =>
      intro v hwf hv
      cases v with
      | nil => simp [inSupportU] at hv
      | cons x xs =>
          simp only [inSupportU, Bool.and_eq_true, decide_eq_true_eq] at hv
          obtain ⟨⟨h1, h2⟩, hrest⟩ := hv
          simp only [List.all_cons, Bool.and_eq_true] at hwf
          obtain ⟨hwfs, hwfss⟩ := hwf
          have hlh : s.lo < s.hi := by
            simpa [UniformSpec.wfB] using hwfs
          cases hper : s.periodic with
          | true =>
              simp only [uniformTransform, hper, if_true, ih xs hwfss hrest, Except.map,
                zipNames, wrap_eq_self s.lo s.hi x hlh h1 h2]
          | false =>
              have hchk := tolCheck_false s tol x htol h1 h2
              simp only [uniformTransform, hper, Bool.false_eq_true, if_false, hchk,
                ih xs hwfss hrest, Except.map, zipNames,
                clamp_eq_self s.lo s.hi x h1 (le_of_lt h2)]

theorem leafTransform_ok (c : LeafPrior) (v : List ℚ) (hwf : c.wfB = true)
    (hv : c.inSupport v = true) : c.transform v = .ok (leafDict c v) := by
  cases c with
  | fixed vals =>
      simp only [LeafPrior.inSupport] at hv
      simp [LeafPrior.transform, leafDict, hv]
  | uniform specs tol =>
      simp only [LeafPrior.wfB, Bool.and_eq_true, decide_eq_true_eq] at hwf
      exact uniformTransform_ok tol hwf.1.1 specs v hwf.1.2 hv

theorem combinedTransform_ok (cs : List LeafPrior) : ∀ v : List ℚ,
    cs.all LeafPrior.wfB = true → combinedInSupport cs v = true →
    combinedTransform cs v = .ok (dictOf cs v) := by
  induction cs with
  | nil => intro v _ _; rfl
  | cons c cs ih =>
      intro v hwf hv
      simp only [List.all_cons, Bool.and_eq_true] at hwf
      simp only [combinedInSupport, Bool.and_eq_true] at hv
      have h1 := leafTransform_ok c (v.take c.nSampled) hwf.1 hv.1
      have h2 := ih (v.drop c.nSampled) hwf.2 hv.2
      simp [combinedTransform, h1, h2, dictOf, Bind.bind, Except.bind, pure, Except.pure]

theorem zipNames_keys : ∀ (specs : List UniformSpec) (v : List ℚ),
    inSupportU specs v = true →
    (zipNames specs v).map Prod.fst = specs.map (fun s => s.name) := by
  intro specs
  induction specs with
  | nil =>
      intro v hv
      cases v with
      | nil => rfl
      | cons x xs => simp [inSupportU] at hv
  | cons s ss ih =>
      intro v hv
      cases v with
      | nil => simp [inSupportU] at hv
      | cons x xs =>
          simp only [inSupportU, Bool.and_eq_true] at hv
          simp [zipNames, ih xs hv.2]

theorem leafDict_keys (c : LeafPrior) (v : List ℚ) (hv : c.inSupport v = true) :
    (leafDict c v).map Prod.fst = c.standard_params := by
  cases c with
  | fixed vals => rfl
  | uniform specs tol => exact zipNames_keys specs v hv

theorem uniformInverse_pre_ok (tol : ℚ) (htol : 0 ≤ tol) :
    ∀ (specs : List UniformSpec) (v : List ℚ) (pre post : List (String × ℚ)),
      specs.all UniformSpec.wfB = true →
      inSupportU specs v = true →
      (specs.map (fun s => s.name)).Nodup →
      (∀ s ∈ specs, alookup s.name pre = none) →
      uniformInverse tol (pre ++ zipNames specs v ++ post) specs = .ok v := by
  intro specs
  induction specs with
  | nil =>
      intro v pre post _ hv _ _
      cases v with
      | nil => rfl
      | cons x xs => simp [inSupportU] at hv
  | cons s ss ih =>
      intro v pre post hwf hv hnd hpre
      cases v with
      | nil => simp [inSupportU] at hv
      | cons x xs =>
          simp only [inSupportU, Bool.and_eq_true, decide_eq_true_eq] at hv
          obtain ⟨⟨h1, h2⟩, hrest⟩ := hv
          simp only [List.all_cons, Bool.and_eq_true] at hwf
          obtain ⟨hwfs, hwfss⟩ := hwf
          have hlh : s.lo < s.hi := by simpa [UniformSpec.wfB] using hwfs
          simp only [List.map_cons, List.nodup_cons] at hnd
          obtain ⟨hnotin, hndss⟩ := hnd
          have hlook : alookup s.name (pre ++ zipNames (s :: ss) (x :: xs) ++ post) = some x := by
            rw [List.append_assoc,
              alookup_append_of_none _ _ _ (hpre s (List.mem_cons_self s ss))]
            simp [zipNames, alookup]
          have hdict : pre ++ zipNames (s :: ss) (x :: xs) ++ post =
              (pre ++ [(s.name, x)]) ++ zipNames ss xs ++ post := by
            simp [zipNames, List.append_assoc]
          have hpre2 : ∀ t ∈ ss, alookup t.name (pre ++ [(s.name, x)]) = none := by
            intro t ht
            rw [alookup_append_of_none _ _ _ (hpre t (List.mem_cons_of_mem s ht))]
            have hne : ¬s.name = t.name := by
              intro hc
              refine hnotin ?_
              rw [hc]
              exact List.mem_map_of_mem _ ht
            simp [alookup, hne]
          have htail : uniformInverse tol (pre ++ zipNames (s :: ss) (x :: xs) ++ post) ss =
              .ok xs := by
            rw [hdict]
            exact ih xs (pre ++ [(s.name, x)]) post hwfss hrest hndss hpre2
          cases hper : s.periodic with
          | true =>
              simp only [uniformInverse, hlook, hper, if_true, htail, Except.map,
                wrap_eq_self s.lo s.hi x hlh h1 h2]
          | false =>
              have hchk := tolCheck_false s tol x htol h1 h2
              simp only [uniformInverse, hlook, hper, Bool.false_eq_true, if_false, hchk,
                htail, Except.map, clamp_eq_self s.lo s.hi x h1 (le_of_lt h2)]

theorem leafInverse_ok (c : LeafPrior) (v : List ℚ) (pre post : List (String × ℚ))
    (hwf : c.wfB = true) (hv : c.inSupport v = true)
    (hpre : ∀ n ∈ c.standard_params, alookup n pre = none) :
    c.inverse_transform (pre ++ leafDict c v ++ post) = .ok v := by
  cases c with
  | fixed vals =>
      simp only [LeafPrior.inSupport, List.isEmpty_iff] at hv
      subst hv
      rfl
  | uniform specs tol =>
      simp only [LeafPrior.wfB, Bool.and_eq_true, decide_eq_true_eq] at hwf
      refine uniformInverse_pre_ok tol hwf.1.1 specs v pre post hwf.1.2 hv hwf.2 ?_
      intro t ht
      exact hpre t.name (List.mem_map_of_mem _ ht)

theorem combinedInverse_ok : ∀ (cs : List LeafPrior) (v : List ℚ)
      (pre post : List (String × ℚ)),
      cs.all LeafPrior.wfB = true →
      combinedInSupport cs v = true →
      (cs.flatMap LeafPrior.standard_params).Nodup →
      (∀ n ∈ cs.flatMap LeafPrior.standard_params, alookup n pre = none) →
      combinedInverse cs (pre ++ dictOf cs v ++ post) = .ok v := by
  intro cs
  induction cs with
  | nil =>
      intro v pre post _ hv _ _
      simp only [combinedInSupport, List.isEmpty_iff] at hv
      subst hv
      rfl
  | cons c cs ih =>
      intro v pre post hwf hv hnd hpre
      simp only [List.all_cons, Bool.and_eq_true] at hwf
      simp only [combinedInSupport, Bool.and_eq_true] at hv
      rw [List.flatMap_cons, List.nodup_append] at hnd
      obtain ⟨hnd1, hnd2, hdisj⟩ := hnd
      have hpre1 : ∀ n ∈ c.standard_params, alookup n pre = none := by
        intro n hn
        refine hpre n ?_
        rw [List.flatMap_cons]
        exact List.mem_append.mpr (Or.inl hn)
      have hhead : c.inverse_transform (pre ++ dictOf (c :: cs) v ++ post) =
          .ok (v.take c.nSampled) := by
        have hd : pre ++ dictOf (c :: cs) v ++ post =
            pre ++ leafDict c (v.take c.nSampled) ++ (dictOf cs (v.drop c.nSampled) ++ post) := by
          simp [dictOf, List.append_assoc]
        rw [hd]
        exact leafInverse_ok c (v.take c.nSampled) pre _ hwf.1 hv.1 hpre1
      have hpre2 : ∀ n ∈ cs.flatMap LeafPrior.standard_params,
          alookup n (pre ++ leafDict c (v.take c.nSampled)) = none := by
        intro n hn
        have hp : alookup n pre = none := by
          refine hpre n ?_
          rw [List.flatMap_cons]
          exact List.mem_append.mpr (Or.inr hn)
        rw [alookup_append_of_none _ _ _ hp, alookup_eq_none_iff,
          leafDict_keys c _ hv.1]
        exact fun hc => hdisj hc hn
      have htail : combinedInverse cs (pre ++ dictOf (c :: cs) v ++ post) =
          .ok (v.drop c.nSampled) := by
        have hd : pre ++ dictOf (c :: cs) v ++ post =
            (pre ++ leafDict c (v.take c.nSampled)) ++ dictOf cs (v.drop c.nSampled) ++ post := by
          simp [dictOf, List.append_assoc]
        rw [hd]
        exact ih (v.drop c.nSampled) _ post hwf.2 hv.2 hnd2 hpre2
      simp only [combinedInverse, Bind.bind, Except.bind, hhead, htail, pure, Except.pure]
      rw [List.take_append_drop]

/-- C5: for every well-formed Prior (Fixed, Bounded-Uniform or Combined
variant) and every sampled vector inside its declared bounds, the transform
succeeds, the inverse transform of the produced standard dict returns
exactly the original vector, and transforming that recovered vector returns
the same standard dict; over the rationals the round trip is exact, which
implies the one-billionth relative tolerance of the claim. -/
theorem C5_transform_round_trip (p : Prior) (v : List ℚ) (hwf : p.wfB = true)
    (hv : p.inSupport v = true) :
    ∃ d, p.transform v = .ok d ∧ p.inverse_transform d = .ok v ∧
      (p.inverse_transform d).bind p.transform = .ok d := by
  cases p with
  | leaf c =>
      have ht : (Prior.leaf c).transform v = .ok (leafDict c v) := leafTransform_ok c v hwf hv
      have hi : (Prior.leaf c).inverse_transform (leafDict c v) = .ok v := by
        have hbase := leafInverse_ok c v [] [] hwf hv (fun n _ => rfl)
        simpa [Prior.inverse_transform] using hbase
      refine ⟨leafDict c v, ht, hi, ?_⟩
      rw [hi]
      simpa [Except.bind] using ht
  | combined cs =>
      simp only [Prior.wfB, Bool.and_eq_true, decide_eq_true_eq] at hwf
      obtain ⟨halls, hnd⟩ := hwf
      have ht : (Prior.combined cs).transform v = .ok (dictOf cs v) :=
        combinedTransform_ok cs v halls hv
      have hi : (Prior.combined cs).inverse_transform (dictOf cs v) = .ok v := by
        have hbase := combinedInverse_ok cs v [] [] halls hv hnd (fun n _ => rfl)
        simpa [Prior.inverse_transform] using hbase
      refine ⟨dictOf cs v, ht, hi, ?_⟩
      rw [hi]
      simpa [Except.bind] using ht

/-- Witness for C5 at a CombinedPrior of one Fixed and one Bounded-Uniform
child, on the in-bounds vector with single coordinate fifteen. -/
theorem C5_transform_round_trip_witness :
    (Prior.combined
        [.fixed [("ra", 0), ("dec", 1)], .uniform [⟨"mchirp", 10, 50, false⟩] 0]).transform
        [15] = .ok [("ra", 0), ("dec", 1), ("mchirp", 15)] ∧
      (Prior.combined
          [.fixed [("ra", 0), ("dec", 1)],
            .uniform [⟨"mchirp", 10, 50, false⟩] 0]).inverse_transform
          [("ra", 0), ("dec", 1), ("mchirp", 15)] = .ok [15] := by
  obtain ⟨d, h1, h2, h3⟩ := C5_transform_round_trip
    (Prior.combined [.fixed [("ra", 0), ("dec", 1)], .uniform [⟨"mchirp", 10, 50, false⟩] 0])
    [15] (by decide) (by decide)
  have htr : (Prior.combined
      [.fixed [("ra", 0), ("dec", 1)], .uniform [⟨"mchirp", 10, 50, false⟩] 0]).transform
      [15] = .ok [("ra", 0), ("dec", 1), ("mchirp", 15)] := by
    simp [Prior.transform, combinedTransform, LeafPrior.transform, LeafPrior.nSampled,
      uniformTransform, clamp, min_def, max_def, Except.map, Bind.bind, Except.bind,
      pure, Except.pure]
    norm_num
  have hd : d = [("ra", 0), ("dec", 1), ("mchirp", 15)] := Except.ok.inj (h1.symm.trans htr)
  rw [hd] at h2
  exact ⟨htr, h2⟩

theorem exceptMap_eq_error {α β γ : Type} (f : α → β) (e : Except γ α) (err : γ) :
    e.map f = .error err ↔ e = .error err := by
  cases e <;> simp [Except.map]

theorem uniformTransform_domainError_iff (tol : ℚ) :
    ∀ (specs : List UniformSpec) (v : List ℚ), v.length = specs.length →
      ((∃ n, uniformTransform tol specs v = .error (.domainError n)) ↔
        ∃ pr ∈ specs.zip v, pr.1.periodic = false ∧
          (pr.2 < pr.1.lo - tol ∨ pr.1.hi + tol < pr.2)) := by
  intro specs
  induction specs with
  | nil =>
      intro v hlen
      have hv : v = [] := List.eq_nil_of_length_eq_zero (by simpa using hlen)
      subst hv
      simp [uniformTransform]
  | cons s ss ih =>
      intro v hlen
      cases v with
      | nil => simp at hlen
      | cons x xs =>
          have hlen2 : xs.length = ss.length := by simpa using hlen
          rw [List.zip_cons_cons]
          cases hper : s.periodic with
          | true =>
              constructor
              · rintro ⟨n, hn⟩
                simp [uniformTransform, hper, exceptMap_eq_error] at hn
                obtain ⟨pr, hmem, hp⟩ := (ih xs hlen2).mp ⟨n, hn⟩
                exact ⟨pr, List.mem_cons_of_mem _ hmem, hp⟩
              · rintro ⟨pr, hmem, hpf, hout⟩
                rcases List.mem_cons.mp hmem with heq | hmem2
                · exfalso
                  subst heq
                  rw [hper] at hpf
                  exact Bool.noConfusion hpf
                · obtain ⟨n, hn⟩ := (ih xs hlen2).mpr ⟨pr, hmem2, hpf, hout⟩
                  exact ⟨n, by simp [uniformTransform, hper, exceptMap_eq_error, hn]⟩
          | false =>
              by_cases hx1 : x < s.lo - tol ∨ s.hi + tol < x
              · have hchk : (decide (x < s.lo - tol) || decide (s.hi + tol < x)) = true := by
                  rcases hx1 with h | h <;> simp [h]
                constructor
                · intro _
                  exact ⟨(s, x), List.mem_cons_self _ _, by simpa using hper, hx1⟩
                · intro _
                  exact ⟨s.name, by simp [uniformTransform, hper, hchk]⟩
              · have hchk : (decide (x < s.lo - tol) || decide (s.hi + tol < x)) = false := by
                  push_neg at hx1
                  simp only [Bool.or_eq_false_iff, decide_eq_false_iff_not, not_lt]
                  exact ⟨hx1.1, hx1.2⟩
                constructor
                · rintro ⟨n, hn⟩
                  simp [uniformTransform, hper, hchk, exceptMap_eq_error] at hn
                  obtain ⟨pr, hmem, hp⟩ := (ih xs hlen2).mp ⟨n, hn⟩
                  exact ⟨pr, List.mem_cons_of_mem _ hmem, hp⟩
                · rintro ⟨pr, hmem, hpf, hout⟩
                  rcases List.mem_cons.mp hmem with heq | hmem2
                  · exfalso
                    subst heq
                    exact hx1 (by simpa using hout)
                  · obtain ⟨n, hn⟩ := (ih xs hlen2).mpr ⟨pr, hmem2, hpf, hout⟩
                    exact ⟨n, by simp [uniformTransform, hper, hchk, exceptMap_eq_error, hn]⟩

theorem uniformInverse_domainError_iff (tol : ℚ) (dict : List (String × ℚ)) :
    ∀ specs : List UniformSpec,
      (∀ s ∈ specs, (alookup s.name dict).isSome = true) →
      ((∃ n, uniformInverse tol dict specs = .error (.domainError n)) ↔
        ∃ s ∈ specs, s.periodic = false ∧ ∃ x, alookup s.name dict = some x ∧
          (x < s.lo - tol ∨ s.hi + tol < x)) := by
  intro specs
  induction specs with
  | nil =>
      intro _
      simp [uniformInverse]
  | cons s ss ih =>
      intro hkeys
      obtain ⟨x, hx⟩ := Option.isSome_iff_exists.mp (hkeys s (List.mem_cons_self s ss))
      have hkeys2 : ∀ t ∈ ss, (alookup t.name dict).isSome = true := fun t ht =>
        hkeys t (List.mem_cons_of_mem s ht)
      cases hper : s.periodic with
      | true =>
          constructor
          · rintro ⟨n, hn⟩
            simp [uniformInverse, hx, hper, exceptMap_eq_error] at hn
            obtain ⟨t, hmem, hp⟩ := (ih hkeys2).mp ⟨n, hn⟩
            exact ⟨t, List.mem_cons_of_mem _ hmem, hp⟩
          · rintro ⟨t, hmem, hpf, y, hy, hout⟩
            rcases List.mem_cons.mp hmem with heq | hmem2
            · exfalso
              subst heq
              rw [hper] at hpf
              exact Bool.noConfusion hpf
            · obtain ⟨n, hn⟩ := (ih hkeys2).mpr ⟨t, hmem2, hpf, y, hy, hout⟩
              exact ⟨n, by simp [uniformInverse, hx, hper, exceptMap_eq_error, hn]⟩
      | false =>
          by_cases hx1 : x < s.lo - tol ∨ s.hi + tol < x
          · have hchk : (decide (x < s.lo - tol) || decide (s.hi + tol < x)) = true := by
              rcases hx1 with h | h <;> simp [h]
            constructor
            · intro _
              exact ⟨s, List.mem_cons_self s ss, hper, x, hx, hx1⟩
            · intro _
              exact ⟨s.name, by simp [uniformInverse, hx, hper, hchk]⟩
          · have hchk : (decide (x < s.lo - tol) || decide (s.hi + tol < x)) = false := by
              push_neg at hx1
              simp only [Bool.or_eq_false_iff, decide_eq_false_iff_not, not_lt]
              exact ⟨hx1.1, hx1.2⟩
            constructor
            · rintro ⟨n, hn⟩
              simp [uniformInverse, hx, hper, hchk, exceptMap_eq_error] at hn
              obtain ⟨t, hmem, hp⟩ := (ih hkeys2).mp ⟨n, hn⟩
              exact ⟨t, List.mem_cons_of_mem _ hmem, hp⟩
            · rintro ⟨t, hmem, hpf, y, hy, hout⟩
              rcases List.mem_cons.mp hmem with heq | hmem2
              · exfalso
                subst heq
                rw [hx] at hy
                have hxy : x = y := Option.some.inj hy
                rw [← hxy] at hout
                exact hx1 hout
              · obtain ⟨n, hn⟩ := (ih hkeys2).mpr ⟨t, hmem2, hpf, y, hy, hout⟩
                exact ⟨n, by simp [uniformInverse, hx, hper, hchk, exceptMap_eq_error, hn]⟩

/-- C8: the transform of a Bounded-Uniform prior raises a DomainError
exactly when some non-periodic coordinate of the input lies strictly outside
its declared bounds beyond the tolerance, and likewise for the inverse
transform on a dict binding every declared name; periodic coordinates are
wrapped and never raise. -/
theorem C8_domain_error_iff (specs : List UniformSpec) (tol : ℚ) (v : List ℚ)
    (dict : List (String × ℚ)) (hlen : v.length = specs.length)
    (hkeys : ∀ s ∈ specs, (alookup s.name dict).isSome = true) :
    ((∃ n, uniformTransform tol specs v = .error (.domainError n)) ↔
      ∃ pr ∈ specs.zip v, pr.1.periodic = false ∧
        (pr.2 < pr.1.lo - tol ∨ pr.1.hi + tol < pr.2)) ∧
    ((∃ n, uniformInverse tol dict specs = .error (.domainError n)) ↔
      ∃ s ∈ specs, s.periodic = false ∧ ∃ x, alookup s.name dict = some x ∧
        (x < s.lo - tol ∨ s.hi + tol < x)) :=
  ⟨uniformTransform_domainError_iff tol specs v hlen,
    uniformInverse_domainError_iff tol dict specs hkeys⟩

/-- Witness for C8 at a one-coordinate prior with the out-of-bounds input
three. -/
theorem C8_domain_error_iff_witness :
    (∃ n, uniformTransform 0 [⟨"mchirp", 1, 2, false⟩] [3] = .error (.domainError n)) ∧
      ∃ n, uniformInverse 0 [("mchirp", 3)] [⟨"mchirp", 1, 2, false⟩] =
        .error (.domainError n) := by
  have h := C8_domain_error_iff [⟨"mchirp", 1, 2, false⟩] 0 [3] [("mchirp", 3)]
    (by decide) (by decide)
  constructor
  · refine h.1.mpr ⟨(⟨"mchirp", 1, 2, false⟩, 3), by decide, by decide, ?_⟩
    right
    norm_num
  · refine h.2.mpr ⟨⟨"mchirp", 1, 2, false⟩, by decide, by decide, 3, by decide, ?_⟩
    right
    norm_num

end PriorCore

namespace ChirpMass

/-- C10: for every negative fitted slope, the chirp mass estimate of the
notebook is the unique positive real satisfying the frequency-evolution
relation with the sign flip the code applies: the combination
of eight pi to the eight thirds over five with the estimate times the solar
mass in seconds, raised to the five thirds, equals minus the slope. -/
theorem C10_mchirp_guess_inverts_slope (slope : ℝ) (h : slope < 0) :
    slopeOfMchirp (mchirp_guess slope) = -slope ∧
      0 < mchirp_guess slope ∧
      ∀ m : ℝ, 0 < m → slopeOfMchirp m = -slope → m = mchirp_guess slope := by
  have hpi : (0 : ℝ) < 8 * Real.pi := by positivity
  have hA : (0 : ℝ) < (8 * Real.pi) ^ ((8 : ℝ) / 3) := Real.rpow_pos_of_pos hpi _
  have hM : (0 : ℝ) < MTSUN_SI := by norm_num [MTSUN_SI]
  have hs : (0 : ℝ) < -slope := neg_pos.mpr h
  have hb : (0 : ℝ) < -slope / (8 * Real.pi) ^ ((8 : ℝ) / 3) * 5 := by positivity
  have hmg : MTSUN_SI * mchirp_guess slope =
      (-slope / (8 * Real.pi) ^ ((8 : ℝ) / 3) * 5) ^ ((3 : ℝ) / 5) := by
    unfold mchirp_guess
    rw [mul_comm, div_mul_cancel₀ _ (ne_of_gt hM)]
  have hpow : ∀ y : ℝ, 0 ≤ y → (y ^ ((3 : ℝ) / 5)) ^ ((5 : ℝ) / 3) = y := by
    intro y hy
    rw [← Real.rpow_mul hy]
    norm_num
  have hpow2 : ∀ y : ℝ, 0 ≤ y → (y ^ ((5 : ℝ) / 3)) ^ ((3 : ℝ) / 5) = y := by
    intro y hy
    rw [← Real.rpow_mul hy]
    norm_num
  have hmgpos : 0 < mchirp_guess slope := by
    unfold mchirp_guess
    exact div_pos (Real.rpow_pos_of_pos hb _) hM
  have hmain : slopeOfMchirp (mchirp_guess slope) = -slope := by
    unfold slopeOfMchirp
    rw [hmg, hpow _ hb.le]
    field_simp
    ring
  refine ⟨hmain, hmgpos, ?_⟩
  intro m hm heq
  have hX : (MTSUN_SI * m) ^ ((5 : ℝ) / 3) =
      (MTSUN_SI * mchirp_guess slope) ^ ((5 : ℝ) / 3) := by
    unfold slopeOfMchirp at heq hmain
    have h5 : ((8 * Real.pi) ^ ((8 : ℝ) / 3) / 5) ≠ 0 := by positivity
    exact mul_left_cancel₀ h5 (heq.trans hmain.symm)
  have h1 : MTSUN_SI * m = MTSUN_SI * mchirp_guess slope := by
    have h2 := congrArg (fun y : ℝ => y ^ ((3 : ℝ) / 5)) hX
    simpa [hpow2 _ (le_of_lt (mul_pos hM hm)),
      hpow2 _ (le_of_lt (mul_pos hM hmgpos))] using h2
  exact mul_left_cancel₀ (ne_of_gt hM) h1

/-- Witness for C10 at slope minus one. -/
theorem C10_mchirp_guess_inverts_slope_witness :
    slopeOfMchirp (mchirp_guess (-1)) = -(-1) ∧ 0 < mchirp_guess (-1) :=
  ⟨(C10_mchirp_guess_inverts_slope (-1) (by norm_num)).1,
    (C10_mchirp_guess_inverts_slope (-1) (by norm_num)).2.1⟩

end ChirpMass

namespace Samples

theorem lookup_setCol (t : Table) (k k2 : String) (c : List ℚ) :
    PriorCore.alookup k2 (setCol t k c) = if k2 = k then some c else PriorCore.alookup k2 t := by
  induction t with
  | nil =>
      by_cases h : k2 = k
      · simp [setCol, PriorCore.alookup, h]
      · simp [setCol, PriorCore.alookup, h, Ne.symm h]
  | cons hd rest ih =>
      obtain ⟨k1, c1⟩ := hd
      by_cases h1 : k1 = k
      · subst h1
        by_cases h2 : k2 = k1
        · simp [setCol, PriorCore.alookup, h2]
        · simp [setCol, PriorCore.alookup, h2, Ne.symm h2]
      · by_cases h2 : k2 = k1
        · subst h2
          simp [setCol, PriorCore.alookup, h1]
        · simp [setCol, PriorCore.alookup, h1, h2, Ne.symm h2, ih]

theorem getCol_setCol (t : Table) (k k2 : String) (c : List ℚ) :
    getCol (setCol t k c) k2 = if k2 = k then c else getCol t k2 := by
  simp only [getCol, lookup_setCol]
  by_cases h : k2 = k
  · simp [h]
  · simp [h]

/-- C9 amended: after add_derived_quantities, row-wise, the mtot column is
the sum of m1 and m2, the q column is m2 over m1, the three source columns
are the corresponding detector-frame masses divided by one plus redshift,
and every column other than the seven assigned ones (redshift, mtot,
m1_source, m2_source, mtot_source, chieff, q) keeps its values; a
pre-existing column with one of those seven names is overwritten rather than
preserved. -/
theorem C9_derived_columns_amended (z : ℚ → ℚ) (ch : ℚ → ℚ → ℚ → ℚ → ℚ) (t : Table) :
    getCol (add_derived_quantities z ch t) "redshift" = (getCol t "d_luminosity").map z ∧
      getCol (add_derived_quantities z ch t) "mtot" =
        List.zipWith (fun a b => a + b) (getCol t "m1") (getCol t "m2") ∧
      getCol (add_derived_quantities z ch t) "m1_source" =
        List.zipWith (fun m zz => m / (1 + zz)) (getCol t "m1")
          ((getCol t "d_luminosity").map z) ∧
      getCol (add_derived_quantities z ch t) "m2_source" =
        List.zipWith (fun m zz => m / (1 + zz)) (getCol t "m2")
          ((getCol t "d_luminosity").map z) ∧
      getCol (add_derived_quantities z ch t) "mtot_source" =
        List.zipWith (fun m zz => m / (1 + zz))
          (List.zipWith (fun a b => a + b) (getCol t "m1") (getCol t "m2"))
          ((getCol t "d_luminosity").map z) ∧
      getCol (add_derived_quantities z ch t) "q" =
        List.zipWith (fun a b => a / b) (getCol t "m2") (getCol t "m1") ∧
      ∀ k : String, k ∉ derivedCols →
        PriorCore.alookup k (add_derived_quantities z ch t) = PriorCore.alookup k t := by
  refine ⟨?_, ?_, ?_, ?_, ?_, ?_, ?_⟩
  · simp [add_derived_quantities, getCol_setCol]
  · simp [add_derived_quantities, getCol_setCol]
  · simp [add_derived_quantities, getCol_setCol]
  · simp [add_derived_quantities, getCol_setCol]
  · simp [add_derived_quantities, getCol_setCol]
  · simp [add_derived_quantities, getCol_setCol]
  · intro k hk
    simp only [derivedCols, List.mem_cons, List.not_mem_nil, or_false] at hk
    push_neg at hk
    obtain ⟨h1, h2, h3, h4, h5, h6, h7⟩ := hk
    simp [add_derived_quantities, lookup_setCol, h1, h2, h3, h4, h5, h6, h7]

/-- Witness for C9 amended at a concrete table with an extra column. -/
theorem C9_derived_columns_amended_witness :
    getCol (add_derived_quantities (fun d => d) (fun a _ _ _ => a)
        [("m1", [(2 : ℚ)]), ("m2", [4]), ("d_luminosity", [1]), ("s1z", [0]), ("s2z", [0]),
          ("extra", [7])]) "mtot" = [6] ∧
      PriorCore.alookup "extra"
        (add_derived_quantities (fun d => d) (fun a _ _ _ => a)
          [("m1", [(2 : ℚ)]), ("m2", [4]), ("d_luminosity", [1]), ("s1z", [0]), ("s2z", [0]),
            ("extra", [7])]) = some [7] := by
  have h := C9_derived_columns_amended (fun d => d) (fun a _ _ _ => a)
    [("m1", [(2 : ℚ)]), ("m2", [4]), ("d_luminosity", [1]), ("s1z", [0]), ("s2z", [0]),
      ("extra", [7])]
  constructor
  · rw [h.2.1]
    simp [getCol, PriorCore.alookup]
    norm_num
  · rw [h.2.2.2.2.2.2 "extra" (by decide)]
    simp [PriorCore.alookup]

/-- C9 counterexample: a table that already owns an mtot column has that
column overwritten by add_derived_quantities, so a pre-existing column does
not keep its values, contradicting the claim as stated. -/
theorem C9_counterexample :
    PriorCore.alookup "mtot"
        [("m1", [(1 : ℚ)]), ("m2", [3]), ("d_luminosity", [2]), ("s1z", [0]), ("s2z", [0]),
          ("mtot", [100])] = some [100] ∧
      PriorCore.alookup "mtot"
        (add_derived_quantities (fun _ => 0) (fun _ _ _ _ => 0)
          [("m1", [(1 : ℚ)]), ("m2", [3]), ("d_luminosity", [2]), ("s1z", [0]), ("s2z", [0]),
            ("mtot", [100])]) = some [4] := by
  constructor
  · simp [PriorCore.alookup]
  · simp [add_derived_quantities, setCol, getCol, PriorCore.alookup, zipWith4]
    norm_num

end Samples
